import Mathlib

/-!
Verification of the sudoku-solver repository: a shallow embedding of the
cell/value model, the 9x9 grid with its row/column/box traversals, the
line parser and encoder, and the iterative depth-first-search solver from
`src/solver.rs`, together with the CLI-side parser from `src/main.rs`.

Conventions of the embedding:
* A `SudokuValue` is the payload of the Rust `NonZeroU8` wrapper, a `Nat`.
* A `SudokuCell` is `Option SudokuValue` (`none` = empty).
* A `Sudoku` is the flat row-major list of its 81 cells; the Rust index
  `[x, y]` (column, row) is the flat index `y * 9 + x`.
* Bytes (`u8`) are modelled as `Nat` below 256.
* A Rust function that can panic is modelled with an `Option` result,
  `none` standing for the panic.
* The solver's main loop is modelled with explicit fuel; the termination
  theorem shows a concrete fuel bound on which the loop always returns,
  and the packaged solver runs on that bound.
* The Rust `HashSet` of constraining values is modelled by its insertion
  stream (a list) queried through a membership oracle; the solver is
  parametric in that oracle so that independence from the set
  representation is provable.
-/

/-- Payload of the Rust `SudokuValue(NonZeroU8)` wrapper. -/
abbrev SudokuValue := Nat

/-- `SudokuValue::new`: validated constructor, accepts exactly 1..=9. -/
def SudokuValue.new (val : Nat) : Option SudokuValue :=
  if 1 ≤ val ∧ val ≤ 9 then some val else none

/-- A cell is empty or holds a value, as the Rust `SudokuCell(Option<SudokuValue>)`. -/
abbrev SudokuCell := Option SudokuValue

/-- `u8::wrapping_sub` of `b'0'` (48) on a byte modelled as a `Nat < 256`. -/
def wrapSubZero (b : Nat) : Nat := (b + 256 - 48) % 256

/-- `SudokuCell::from_ascci_char`: `'.'` (46) gives an empty cell, a byte whose
wrapping distance from `'0'` passes `SudokuValue::new` gives a filled cell,
anything else gives `None`. -/
def SudokuCell.from_ascci_char (val : Nat) : Option SudokuCell :=
  if val = 46 then some none
  else (SudokuValue.new (wrapSubZero val)).map some

/-- The working grid: flat row-major list of cells (81 entries when well-formed). -/
abbrev Sudoku := List SudokuCell

/-- Read the cell at flat position `p` (`p = y * 9 + x`). -/
def getC (g : Sudoku) (p : Nat) : SudokuCell := g.getD p none

/-- Read the cell addressed Rust-style by `[x, y]` (column, row). -/
def getXY (g : Sudoku) (x y : Nat) : SudokuCell := getC g (y * 9 + x)

/-- Write the cell at flat position `p`. -/
def setC (g : Sudoku) (p : Nat) (c : SudokuCell) : Sudoku := g.set p c

/-- State machine of the Rust `Row` iterator: yields `self[[x, y]]` while
`x < 9`.  The first argument counts the remaining steps (`9 - x`), making
the bounded loop structurally recursive. -/
def rowIter (g : Sudoku) (y : Nat) : Nat → Nat → List SudokuCell
  | 0, _ => []
  | left + 1, x => if 9 ≤ x then [] else getXY g x y :: rowIter g y left (x + 1)

/-- `Sudoku::row(i)`: the row iterator started at `x = 0`. -/
def Sudoku.rowL (g : Sudoku) (i : Nat) : List SudokuCell := rowIter g i 9 0

/-- State machine of the Rust `Column` iterator: yields `self[[x, y]]` while
`y < 9`, with the same remaining-step counter. -/
def colIter (g : Sudoku) (x : Nat) : Nat → Nat → List SudokuCell
  | 0, _ => []
  | left + 1, y => if 9 ≤ y then [] else getXY g x y :: colIter g x left (y + 1)

/-- `Sudoku::column(i)`: the column iterator started at `y = 0`. -/
def Sudoku.columnL (g : Sudoku) (i : Nat) : List SudokuCell := colIter g i 9 0

/-- State machine of the Rust `Cell` (box) iterator: for counter `ix < 9` it
yields the cell at `[3*(pos%3) + ix%3, 3*(pos/3) + ix/3]`, with the same
remaining-step counter. -/
def boxIter (g : Sudoku) (pos : Nat) : Nat → Nat → List SudokuCell
  | 0, _ => []
  | left + 1, ix =>
    if 9 ≤ ix then []
    else getXY g (3 * (pos % 3) + ix % 3) (3 * (pos / 3) + ix / 3) :: boxIter g pos left (ix + 1)

/-- `Sudoku::cell(i)`: the box iterator started at counter 0. -/
def Sudoku.cellL (g : Sudoku) (i : Nat) : List SudokuCell := boxIter g i 9 0

/-- Helper of the Rust free function `unique`: no value occurs twice
(`values[ix+1..].contains(&v)` for no `ix`). -/
def noDupVals : List SudokuValue → Bool
  | [] => true
  | v :: rest => !(rest.contains v) && noDupVals rest

/-- The Rust free function `unique`: collect the filled values of a line and
check that none repeats. -/
def uniqueC (cells : List SudokuCell) : Bool := noDupVals (cells.filterMap id)

/-- `Sudoku::filled`: every cell is filled. -/
def Sudoku.filledB (g : Sudoku) : Bool := g.all fun c => c.isSome

/-- `Sudoku::valid`: for every index, the row, column and box are duplicate-free. -/
def Sudoku.validB (g : Sudoku) : Bool :=
  (List.range 9).all fun i => uniqueC (g.rowL i) && uniqueC (g.columnL i) && uniqueC (g.cellL i)

/-- `Sudoku::solved`: `filled() && valid()`. -/
def Sudoku.solvedB (g : Sudoku) : Bool := g.filledB && g.validB

/-- Option-valued map, short-circuiting on the first `none` (the monadic map
used to model fallible per-element loops). -/
def mapOpt (f : α → Option β) : List α → Option (List β)
  | [] => some []
  | a :: l =>
    match f a with
    | none => none
    | some b => (mapOpt f l).map (b :: ·)

/-- `Sudoku::from_line`: asserts the line has exactly 81 bytes, then converts
each byte with `SudokuCell::from_ascci_char`, panicking (`none`) on a bad byte. -/
def Sudoku.from_line (line : List Nat) : Option Sudoku :=
  if line.length = 81 then mapOpt SudokuCell.from_ascci_char line else none

/-- `Display` of one cell in the non-alternate form: `'.'` when empty, the
ASCII digit when filled; a filled value outside 1..=9 hits the
`unreachable!` in `Display for SudokuValue` (modelled as `none`). -/
def displayCell (c : SudokuCell) : Option Nat :=
  match c with
  | none => some 46
  | some v => if 1 ≤ v ∧ v ≤ 9 then some (48 + v) else none

/-- The non-alternate `Debug` rendering of a grid: the 81 cells printed in
positions `(0,0), (1,0), ..., (8,8)`, which is exactly flat order. -/
def encodeLine (g : Sudoku) : Option (List Nat) := mapOpt displayCell g

/-- The Rust `SolvedSudoku`: 81 values, flat row-major. -/
abbrev SolvedSudoku := List SudokuValue

/-- `TryFrom<Sudoku> for SolvedSudoku`: succeeds exactly when the grid is
solved, unwrapping every cell. -/
def trySolved (g : Sudoku) : Option SolvedSudoku :=
  if g.solvedB then mapOpt id g else none

/-- `From<SolvedSudoku> for Sudoku`: refill every cell. -/
def SolvedSudoku.toSudoku (s : SolvedSudoku) : Sudoku := s.map some

/-- The insertion stream of the solver's `all_affecting` set: filled values of
the row, then the column, then the box of position `p` (`row_from_ix = p / 9`,
`column_from_ix = p % 9`, `cell_from_ix = 3 * (y / 3) + x / 3`). -/
def affList (g : Sudoku) (p : Nat) : List SudokuValue :=
  (g.rowL (p / 9)).filterMap id ++ (g.columnL (p % 9)).filterMap id
    ++ (g.cellL (3 * (p / 9 / 3) + p % 9 / 3)).filterMap id

/-- Membership oracle abstracting `HashSet::contains` on `all_affecting`. -/
abbrev AffFun := Sudoku → Nat → Nat → Bool

/-- The canonical oracle: membership in the insertion stream. -/
def affMem : AffFun := fun g p v => (affList g p).contains v

/-- An alternative oracle implementation (propositional membership), used to
witness that the solver does not depend on the set representation. -/
def affDec : AffFun := fun g p v => decide (v ∈ affList g p)

/-- `SudokuValues(c).find(|v| !all.contains(v))`: the iterator yields
`c+1, ..., 9` in order and `find` returns the first value the oracle rejects.
The first argument counts the remaining steps (`9 - c`). -/
def findFrom (mem : Nat → Bool) : Nat → Nat → Option Nat
  | 0, _ => none
  | left + 1, c =>
    if 9 ≤ c then none
    else if mem (c + 1) then findFrom mem left (c + 1) else some (c + 1)

/-- The initial frontier: indexes of all empty cells, collected in flat order
into a `Vec`; the list head is the `Vec`'s popping end, hence the reverse. -/
def emptyCells (g : Sudoku) : List Nat :=
  (((List.range g.length).filter fun p => (getC g p).isNone)).reverse

/-- The backtracking `while let Some((ix, values)) = state.pop()` loop:
clear the popped cell, re-query the constraints, and either resume with the
next untried viable value (right) or push the position back onto the
frontier and keep popping; an empty trail ends the search (left). -/
def backtrackGen (m : AffFun) :
    Sudoku → List Nat → List (Nat × Nat) → (Sudoku × List Nat) ⊕ (Sudoku × List Nat × List (Nat × Nat))
  | s, e, [] => Sum.inl (s, e)
  | s, e, (ix, c) :: rest =>
    let s1 := setC s ix none
    match findFrom (m s1 ix) (9 - c) c with
    | some v => Sum.inr (setC s1 ix (some v), e, (ix, v) :: rest)
    | none => backtrackGen m s1 (ix :: e) rest

/-- The solver's `'main` loop with explicit fuel (`none` = fuel ran out):
pop a frontier position and fill it with the first viable value, return
`ok` when the frontier is empty, and fall back to the backtracking loop
when no value fits, returning `error` when that loop exhausts the trail. -/
def solveLoopGen (m : AffFun) :
    Nat → Sudoku → List Nat → List (Nat × Nat) → Option (Except Sudoku Sudoku)
  | 0, _, _, _ => none
  | fuel + 1, s, e, t =>
    match e with
    | [] => some (Except.ok s)
    | ix :: rest =>
      match findFrom (m s ix) 9 0 with
      | some v => solveLoopGen m fuel (setC s ix (some v)) rest ((ix, v) :: t)
      | none =>
        let s1 := setC s ix none
        match backtrackGen m s1 (ix :: rest) t with
        | Sum.inl (s2, _) => some (Except.error s2)
        | Sum.inr (s2, e2, t2) => solveLoopGen m fuel s2 e2 t2

/-- Weighted digit sum of the trail cursors: the most recent entry weighs
`10 ^ f` (`f` = current frontier length), each older entry ten times more. -/
def cursorsN : Nat → List (Nat × Nat) → Nat
  | _, [] => 0
  | f, (_, c) :: rest => min c 9 * 10 ^ f + cursorsN (f + 1) rest

/-- Remaining-work measure of a solver state. -/
def loopMeasure (f : Nat) (t : List (Nat × Nat)) : Nat :=
  10 ^ (f + t.length) - cursorsN f t

/-- `main.rs` grid: flat column-major list of raw values (`0` = empty),
since the CLI `Sudoku([[SudokuValue; 9]; 9])` is indexed `[x][y]`. -/
abbrev MainGrid := List Nat

/-- One step of the CLI parsing loop: a digit byte is stored at `[x][y]`
(flat `x * 9 + y` with `x = i % 9`, `y = i / 9`), anything else is skipped. -/
def mainParseStep (g : MainGrid) (ib : Nat × Nat) : MainGrid :=
  if 49 ≤ ib.2 ∧ ib.2 ≤ 57 then g.set (ib.1 % 9 * 9 + ib.1 / 9) (ib.2 - 48) else g

/-- `main.rs::parse_sudoku_line`: assert the length is 81 (`none` = panic),
then fold the loop body over the enumerated bytes starting from the
all-zero grid. -/
def parse_sudoku_line (line : List Nat) : Option MainGrid :=
  if line.length = 81 then some (line.enum.foldl mainParseStep (List.replicate 81 0)) else none

/-- Fuel bound on which the packaged solver runs its main loop. -/
def boundFuel (g : Sudoku) : Nat := 10 ^ (emptyCells g).length

/-- `IterativeDFS::try_solve` up to the `Ok`-branch conversion: run the main
loop on the fuel bound.  The default of the `getD` is a dead branch: the
termination theorem below shows the loop always returns within the bound. -/
def tryDFSRawGen (m : AffFun) (g : Sudoku) : Except Sudoku Sudoku :=
  (solveLoopGen m (boundFuel g) g (emptyCells g) []).getD (Except.error [])

/-- `IterativeDFS::try_solve`: on the `Ok` branch the grid goes through
`SolvedSudoku::try_from(..).expect(..)`, whose failure is the panic
(modelled `none`); the `Err` branch carries the final grid. -/
def tryDFSGen (m : AffFun) (g : Sudoku) : Option (Except Sudoku SolvedSudoku) :=
  match tryDFSRawGen m g with
  | Except.ok s => (trySolved s).map Except.ok
  | Except.error s => some (Except.error s)

/-- The solver as shipped: the generic solver on the canonical set oracle. -/
def IterativeDFS.try_solve (g : Sudoku) : Option (Except Sudoku SolvedSudoku) :=
  tryDFSGen affMem g

/-- Bytes of an ASCII string, for concrete test lines. -/
def strBytes (s : String) : List Nat := s.toList.map Char.toNat

/-- A concrete fully-solved valid grid (the classic shifted pattern). -/
def baseGrid : Sudoku :=
  (List.range 81).map fun p => some ((3 * (p / 9 % 3) + p / 9 / 3 + p % 9) % 9 + 1)

/-- `baseGrid` with the cell at flat position 1 overwritten by the value of
position 0: fully filled, with a duplicated value in row 0. -/
def dupGrid : Sudoku := setC baseGrid 1 (getC baseGrid 0)

/-- The 81-byte encoded form of `dupGrid`. -/
def dupLine : List Nat :=
  strBytes "113456789456789123789123456234567891567891234891234567345678912678912345912345678"

/-- `baseGrid` with the cell at flat position 0 blanked. -/
def oneEmptyGrid : Sudoku := setC baseGrid 0 none

/-- An 81-byte line whose parse has exactly one empty cell (position 0) that
no value can fill: its row holds 2..9 and its column holds 1. -/
def exhaustLine : List Nat :=
  strBytes ".23456789111111111111111111111111111111111111111111111111111111111111111111111111"

/-- The repository test puzzle `TEST_SUDOKU`. -/
def testLine : List Nat :=
  strBytes ".......1.4.........2...........5.4.7..8...3....1.9....3..4..2...5.1........8.6..."

/-- The values of `baseGrid` as a `SolvedSudoku`. -/
def baseVals : SolvedSudoku :=
  (List.range 81).map fun p => (3 * (p / 9 % 3) + p / 9 / 3 + p % 9) % 9 + 1

/-- The parsed form of `exhaustLine`. -/
def exhaustGrid : Sudoku := (Sudoku.from_line exhaustLine).getD []

/-- Invariant of the solver's main loop relating the original grid `g0` to
the current grid `s`, frontier `e` and trail `t`: every tracked position was
originally empty and is in bounds, frontier positions are currently empty,
trail positions currently hold their recorded value, all other positions
still hold their original cell, every originally empty position is tracked,
and no position is tracked twice. -/
structure LoopInv (g0 s : Sudoku) (e : List Nat) (t : List (Nat × Nat)) : Prop where
  len : s.length = g0.length
  boundsE : ∀ p ∈ e, p < g0.length
  boundsT : ∀ pr ∈ t, pr.1 < g0.length
  origEmptyE : ∀ p ∈ e, getC g0 p = none
  origEmptyT : ∀ pr ∈ t, getC g0 pr.1 = none
  curEmpty : ∀ p ∈ e, getC s p = none
  curFilled : ∀ pr ∈ t, getC s pr.1 = some pr.2
  untouched : ∀ p, p ∉ e → p ∉ t.map Prod.fst → getC s p = getC g0 p
  cover : ∀ p, p < g0.length → getC g0 p = none → p ∈ e ∨ p ∈ t.map Prod.fst
  nodup : (e ++ t.map Prod.fst).Nodup

section BasicLemmas

theorem getC_eq_getElem? (g : Sudoku) (p : Nat) : getC g p = g[p]?.getD none := by
  simp [getC, List.getD_eq_getElem?_getD]

theorem length_setC (g : Sudoku) (p : Nat) (c : SudokuCell) :
    (setC g p c).length = g.length := List.length_set ..

theorem getC_setC_self {g : Sudoku} {p : Nat} (c : SudokuCell) (h : p < g.length) :
    getC (setC g p c) p = c := by
  simp [getC_eq_getElem?, setC, List.getElem?_set_self h]

theorem getC_setC_ne {g : Sudoku} {p q : Nat} (c : SudokuCell) (h : q ≠ p) :
    getC (setC g p c) q = getC g q := by
  simp [getC_eq_getElem?, setC, List.getElem?_set_ne (Ne.symm h)]

theorem getC_oob {g : Sudoku} {p : Nat} (h : g.length ≤ p) : getC g p = none := by
  simp [getC_eq_getElem?, List.getElem?_eq_none h]

end BasicLemmas

section IteratorLemmas

theorem rowIter_eq_range (g : Sudoku) (y : Nat) :
    ∀ n x, n = 9 - x → rowIter g y n x = (List.range' x n).map fun xx => getXY g xx y := by
  intro n
  induction n with
  | zero => intro x hx; rfl
  | succ n ih =>
    intro x hx
    have hlt : ¬ 9 ≤ x := by omega
    rw [rowIter, if_neg hlt, List.range'_succ, List.map_cons, ih (x + 1) (by omega)]

theorem colIter_eq_range (g : Sudoku) (x : Nat) :
    ∀ n y, n = 9 - y → colIter g x n y = (List.range' y n).map fun yy => getXY g x yy := by
  intro n
  induction n with
  | zero => intro y hy; rfl
  | succ n ih =>
    intro y hy
    have hlt : ¬ 9 ≤ y := by omega
    rw [colIter, if_neg hlt, List.range'_succ, List.map_cons, ih (y + 1) (by omega)]

theorem boxIter_eq_range (g : Sudoku) (pos : Nat) :
    ∀ n ix, n = 9 - ix →
      boxIter g pos n ix
        = (List.range' ix n).map fun k => getXY g (3 * (pos % 3) + k % 3) (3 * (pos / 3) + k / 3) := by
  intro n
  induction n with
  | zero => intro ix hix; rfl
  | succ n ih =>
    intro ix hix
    have hlt : ¬ 9 ≤ ix := by omega
    rw [boxIter, if_neg hlt, List.range'_succ, List.map_cons, ih (ix + 1) (by omega)]

theorem rowL_eq (g : Sudoku) (i : Nat) :
    g.rowL i = (List.range 9).map fun x => getXY g x i := by
  rw [Sudoku.rowL, rowIter_eq_range g i 9 0 rfl, List.range_eq_range']

theorem columnL_eq (g : Sudoku) (i : Nat) :
    g.columnL i = (List.range 9).map fun y => getXY g i y := by
  rw [Sudoku.columnL, colIter_eq_range g i 9 0 rfl, List.range_eq_range']

theorem cellL_eq (g : Sudoku) (i : Nat) :
    g.cellL i = (List.range 9).map fun k => getXY g (3 * (i % 3) + k % 3) (3 * (i / 3) + k / 3) := by
  rw [Sudoku.cellL, boxIter_eq_range g i 9 0 rfl, List.range_eq_range']

end IteratorLemmas

/-- C8: for every index `i` in 0..9 the traversal operations yield exactly the
9 cells of their line in fixed order: `row(i)` is row `i` left to right,
`column(i)` is column `i` top to bottom, and `cell(i)` (the box) covers
columns `3*(i%3)..3*(i%3)+3` and rows `3*(i/3)..3*(i/3)+3` in row-major
order within the 3x3 block. -/
theorem claim_C8_traversal_order (g : Sudoku) (i : Nat) (_hi : i < 9) :
    g.rowL i = (List.range 9).map (fun x => getXY g x i)
      ∧ g.columnL i = (List.range 9).map (fun y => getXY g i y)
      ∧ g.cellL i = (List.range 9).map
          (fun k => getXY g (3 * (i % 3) + k % 3) (3 * (i / 3) + k / 3)) :=
  ⟨rowL_eq g i, columnL_eq g i, cellL_eq g i⟩

/-- Witness for C8: the traversal-order theorem applied to a concrete grid
(the grid with a single filled cell at position `(x, y) = (4, 3)`) and `i = 4`. -/
theorem claim_C8_witness :
    ((setC (List.replicate 81 none) 31 (some 7)).rowL 4
        = (List.range 9).map (fun x => getXY (setC (List.replicate 81 none) 31 (some 7)) x 4))
      ∧ ((setC (List.replicate 81 none) 31 (some 7)).columnL 4
        = (List.range 9).map (fun y => getXY (setC (List.replicate 81 none) 31 (some 7)) 4 y))
      ∧ ((setC (List.replicate 81 none) 31 (some 7)).cellL 4
        = (List.range 9).map
            (fun k => getXY (setC (List.replicate 81 none) 31 (some 7))
              (3 * (4 % 3) + k % 3) (3 * (4 / 3) + k / 3))) :=
  claim_C8_traversal_order (setC (List.replicate 81 none) 31 (some 7)) 4 (by decide)

/-- Characterization of `SudokuCell::from_ascci_char` on all byte values. -/
theorem from_ascci_char_eq (b : Nat) (hb : b < 256) :
    SudokuCell.from_ascci_char b
      = (if b = 46 then some none
         else if 49 ≤ b ∧ b ≤ 57 then some (some (b - 48)) else none) := by
  unfold SudokuCell.from_ascci_char SudokuValue.new wrapSubZero
  by_cases h46 : b = 46
  · simp [h46]
  · rw [if_neg h46, if_neg h46]
    by_cases hd : 49 ≤ b ∧ b ≤ 57
    · have hmod : (b + 256 - 48) % 256 = b - 48 := by omega
      rw [hmod, if_pos hd, if_pos (by omega)]
      simp
    · have h2 : ¬(1 ≤ (b + 256 - 48) % 256 ∧ (b + 256 - 48) % 256 ≤ 9) := by omega
      rw [if_neg h2, if_neg hd]
      simp

/-- C10: `SudokuCell::from_ascci_char` is total on all 256 byte values and
never panics: it yields the empty cell exactly on `'.'` (46), a cell filled
with digit `b - '0'` exactly on `'1'..'9'` (49..57), and `None` on every
other byte; in particular `'0'` (48) and bytes below it give `None`, the
wrapping subtraction never underflowing. -/
theorem claim_C10_from_ascci_char_total (b : Nat) (hb : b < 256) :
    SudokuCell.from_ascci_char b
      = (if b = 46 then some none
         else if 49 ≤ b ∧ b ≤ 57 then some (some (b - 48)) else none) :=
  from_ascci_char_eq b hb

/-- Witness for C10: the characterization applied at the byte `'0'` (48),
which yields `None`. -/
theorem claim_C10_witness :
    SudokuCell.from_ascci_char 48
      = (if (48 : Nat) = 46 then some none
         else if 49 ≤ (48 : Nat) ∧ (48 : Nat) ≤ 57 then some (some (48 - 48)) else none) :=
  claim_C10_from_ascci_char_total 48 (by decide)

section RoundTrip

theorem displayCell_from_ascci_char {b : Nat} (h : b = 46 ∨ (49 ≤ b ∧ b ≤ 57)) :
    ∃ c, SudokuCell.from_ascci_char b = some c ∧ displayCell c = some b := by
  have hb : b < 256 := by omega
  rw [from_ascci_char_eq b hb]
  rcases h with h | h
  · exact ⟨none, by simp [h], by simp [displayCell, h]⟩
  · have h46 : b ≠ 46 := by omega
    refine ⟨some (b - 48), by rw [if_neg h46, if_pos h], ?_⟩
    show (if 1 ≤ b - 48 ∧ b - 48 ≤ 9 then some (48 + (b - 48)) else none) = some b
    rw [if_pos (by omega)]
    congr 1
    omega

theorem mapOpt_roundtrip {α β : Type} {f : α → Option β} {h : β → Option α} :
    ∀ l : List α, (∀ a ∈ l, ∃ bb, f a = some bb ∧ h bb = some a) →
      ∃ g, mapOpt f l = some g ∧ mapOpt h g = some l := by
  intro l
  induction l with
  | nil => exact fun _ => ⟨[], rfl, rfl⟩
  | cons a l ih =>
    intro hl
    obtain ⟨bb, hfa, hha⟩ := hl a (by simp)
    obtain ⟨g, hg1, hg2⟩ := ih fun x hx => hl x (by simp [hx])
    exact ⟨bb :: g, by simp [mapOpt, hfa, hg1], by simp [mapOpt, hha, hg2]⟩

end RoundTrip

/-- C5: for every 81-byte line over the alphabet `'.'` (46) and `'1'..'9'`
(49..57), parsing with `Sudoku::from_line` succeeds and the single-line
(non-alternate) encoding of the parsed grid reproduces the line byte for byte. -/
theorem claim_C5_roundtrip (line : List Nat) (hlen : line.length = 81)
    (halpha : ∀ b ∈ line, b = 46 ∨ (49 ≤ b ∧ b ≤ 57)) :
    ∃ g, Sudoku.from_line line = some g ∧ encodeLine g = some line := by
  obtain ⟨g, h1, h2⟩ :=
    mapOpt_roundtrip line fun b hb => displayCell_from_ascci_char (halpha b hb)
  exact ⟨g, by rw [Sudoku.from_line, if_pos hlen]; exact h1, h2⟩

/-- Witness for C5: the round-trip theorem applied to the repository's own
test puzzle line. -/
theorem claim_C5_witness :
    ∃ g, Sudoku.from_line testLine = some g ∧ encodeLine g = some testLine :=
  claim_C5_roundtrip testLine (by decide) (by decide)

section Prefilled

theorem filledB_emptyCells {g : Sudoku} (hf : g.filledB = true) : emptyCells g = [] := by
  rw [emptyCells, List.reverse_eq_nil_iff]
  rw [List.filter_eq_nil_iff]
  intro p hp
  have hlt : p < g.length := List.mem_range.mp hp
  intro hcon
  have hnone : getC g p = none := by simpa using hcon
  have hmem : getC g p ∈ g := by
    rw [getC_eq_getElem?, List.getElem?_eq_getElem hlt, Option.getD_some]
    exact List.getElem_mem hlt
  have hall := List.all_eq_true.mp hf _ hmem
  rw [hnone] at hall
  simp at hall

theorem mapOpt_id_filled {g : Sudoku} (hf : g.filledB = true) :
    ∃ s : SolvedSudoku, mapOpt id g = some s ∧ s.map some = g := by
  induction g with
  | nil => exact ⟨[], rfl, rfl⟩
  | cons c rest ih =>
    rw [Sudoku.filledB, List.all_cons, Bool.and_eq_true] at hf
    obtain ⟨v, rfl⟩ := Option.isSome_iff_exists.mp hf.1
    obtain ⟨s, h1, h2⟩ := ih hf.2
    exact ⟨v :: s, by simp [mapOpt, h1], by simp [h2]⟩

theorem trySolved_some {g : Sudoku} (hf : g.filledB = true) (hv : g.validB = true) :
    ∃ s, trySolved g = some s ∧ s.toSudoku = g := by
  obtain ⟨s, h1, h2⟩ := mapOpt_id_filled hf
  exact ⟨s, by rw [trySolved, if_pos (by simp [Sudoku.solvedB, hf, hv])]; exact h1, h2⟩

end Prefilled

/-- C9: a fully pre-filled, already-valid grid is returned immediately as
already solved: the initial frontier is empty, fuel 1 (a single pass of the
main loop, with no tentative assignment and no backtracking) already
produces the success return, and `try_solve` yields `Ok` of a solved grid
with exactly the input's cells. -/
theorem claim_C9_prefilled_immediate (g : Sudoku) (hf : g.filledB = true)
    (hv : g.validB = true) :
    emptyCells g = [] ∧ solveLoopGen affMem 1 g (emptyCells g) [] = some (Except.ok g)
      ∧ ∃ s, IterativeDFS.try_solve g = some (Except.ok s) ∧ s.toSudoku = g := by
  have he := filledB_emptyCells hf
  refine ⟨he, by rw [he]; rfl, ?_⟩
  obtain ⟨s, hs1, hs2⟩ := trySolved_some hf hv
  refine ⟨s, ?_, hs2⟩
  rw [IterativeDFS.try_solve, tryDFSGen, tryDFSRawGen, boundFuel, he]
  simp [solveLoopGen, hs1]

/-- Witness for C9: the immediate-return theorem applied to a concrete
fully-solved valid grid. -/
theorem claim_C9_witness :
    emptyCells baseGrid = []
      ∧ solveLoopGen affMem 1 baseGrid (emptyCells baseGrid) [] = some (Except.ok baseGrid)
      ∧ ∃ s, IterativeDFS.try_solve baseGrid = some (Except.ok s) ∧ s.toSudoku = baseGrid :=
  claim_C9_prefilled_immediate baseGrid (by decide) (by decide)

/-- C2 records a divergence between the specified behavior and the code: on a
grid whose givens already duplicate a value inside one row the specification
demands the exhaustion error, but when the search (here: trivially, since the
grid is fully given) reaches the success branch, the
`SolvedSudoku::try_from(sudoku).expect(..)` conversion fails on the invalid
grid and the function panics instead of returning.  This theorem evaluates
the model at the failing input: `dupLine` parses to `dupGrid`, whose row 0
holds the value 1 twice, the main loop returns its success branch at once,
the solved-grid conversion fails, and `try_solve` panics (`none`). -/
theorem claim_C2_panic_on_duplicate_givens :
    Sudoku.from_line dupLine = some dupGrid
      ∧ getC dupGrid 0 = some 1 ∧ getC dupGrid 1 = some 1
      ∧ dupGrid.validB = false
      ∧ solveLoopGen affMem (boundFuel dupGrid) dupGrid (emptyCells dupGrid) []
          = some (Except.ok dupGrid)
      ∧ trySolved dupGrid = none
      ∧ IterativeDFS.try_solve dupGrid = none :=
  ⟨rfl, rfl, rfl, rfl, rfl, rfl, rfl⟩

/-- Counterexample for C7: a line of 81 bytes `'A'` (65), every one of them
outside the alphabet `{'.', '1'..'9'}`, on which the CLI's
`parse_sudoku_line` succeeds (returning the all-empty grid) instead of
failing fatally. -/
theorem claim_C7_counterexample :
    parse_sudoku_line (List.replicate 81 65) = some (List.replicate 81 0) := rfl

/-- C6: the solver is a deterministic function of the input grid alone; in
particular the `HashSet` of used values cannot influence the chosen value,
because candidates are scanned in fixed ascending order through membership
tests only.  Formally: any membership oracle that agrees with membership in
the insertion stream of `all_affecting` produces the same `try_solve`
result as the shipped solver on every grid. -/
theorem claim_C6_determinism (m : AffFun)
    (hm : ∀ s p v, m s p v = true ↔ v ∈ affList s p) (g : Sudoku) :
    tryDFSGen m g = IterativeDFS.try_solve g := by
  have hmem : ∀ s p v, affMem s p v = true ↔ v ∈ affList s p := by
    intro s p v
    rw [affMem]
    exact List.elem_iff
  have hEq : m = affMem := by
    funext s p v
    rw [Bool.eq_iff_iff, hm s p v, hmem s p v]
  rw [IterativeDFS.try_solve, hEq]

/-- Witness for C6: the independence theorem applied to the propositional
membership oracle and a concrete grid. -/
theorem claim_C6_witness : tryDFSGen affDec oneEmptyGrid = IterativeDFS.try_solve oneEmptyGrid :=
  claim_C6_determinism affDec (by intro s p v; simp [affDec]) oneEmptyGrid

section ParserCharacterization

theorem getD_set_ne {α : Type} {l : List α} {t q : Nat} {a d : α} (h : t ≠ q) :
    (l.set t a).getD q d = l.getD q d := by
  simp [List.getD_eq_getElem?_getD, List.getElem?_set_ne h]

theorem getD_set_self {α : Type} {l : List α} {t : Nat} {a d : α} (h : t < l.length) :
    (l.set t a).getD t d = a := by
  simp [List.getD_eq_getElem?_getD, List.getElem?_set_self h]

theorem mapOpt_eq_none_iff {α β : Type} {f : α → Option β} :
    ∀ l : List α, (mapOpt f l = none ↔ ∃ a ∈ l, f a = none) := by
  intro l
  induction l with
  | nil => simp [mapOpt]
  | cons a l ih =>
    rw [mapOpt]
    cases hfa : f a with
    | none => simp [hfa]
    | some b =>
      cases hrest : mapOpt f l with
      | none =>
        obtain ⟨x, hx, hfx⟩ := ih.mp hrest
        simp only [Option.map_none']
        constructor
        · intro _
          exact ⟨x, List.mem_cons_of_mem a hx, hfx⟩
        · intro _
          trivial
      | some g =>
        simp only [Option.map_some']
        constructor
        · intro hcon
          exact absurd hcon (by simp)
        · rintro ⟨x, hx, hfx⟩
          rcases List.mem_cons.mp hx with rfl | hx2
          · rw [hfa] at hfx
            exact absurd hfx (by simp)
          · rw [ih.mpr ⟨x, hx2, hfx⟩] at hrest
            exact absurd hrest (by simp)

theorem mapOpt_some_getD {α β : Type} {f : α → Option β} (da : α) (db : β) :
    ∀ (l : List α) (g : List β), mapOpt f l = some g →
      g.length = l.length ∧ ∀ i, i < l.length → f (l.getD i da) = some (g.getD i db) := by
  intro l
  induction l with
  | nil =>
    intro g hg
    rw [mapOpt] at hg
    cases hg
    exact ⟨rfl, by intro i hi; exact absurd hi (by simp)⟩
  | cons a l ih =>
    intro g hg
    rw [mapOpt] at hg
    cases hfa : f a with
    | none => rw [hfa] at hg; exact absurd hg (by simp)
    | some b =>
      rw [hfa] at hg
      cases hrest : mapOpt f l with
      | none => rw [hrest] at hg; exact absurd hg (by simp)
      | some g' =>
        rw [hrest] at hg
        have hg2 : b :: g' = g := by simpa using hg
        subst hg2
        obtain ⟨hlen, hval⟩ := ih g' hrest
        refine ⟨by simp [hlen], ?_⟩
        intro i hi
        cases i with
        | zero => simpa using hfa
        | succ i => simpa using hval i (by simpa using hi)

theorem from_ascci_char_none_iff {b : Nat} (hb : b < 256) :
    SudokuCell.from_ascci_char b = none ↔ ¬(b = 46 ∨ (49 ≤ b ∧ b ≤ 57)) := by
  rw [from_ascci_char_eq b hb]
  by_cases h46 : b = 46
  · simp [h46]
  · by_cases hd : 49 ≤ b ∧ b ≤ 57
    · simp [h46, hd]
    · simp [h46, hd]

theorem foldl_mainParseStep_length :
    ∀ (l : List (Nat × Nat)) (g : MainGrid), (l.foldl mainParseStep g).length = g.length := by
  intro l
  induction l with
  | nil => intro g; rfl
  | cons e l ih =>
    intro g
    rw [List.foldl_cons, ih]
    unfold mainParseStep
    split
    · simp
    · rfl

theorem foldl_mainParseStep_untouched :
    ∀ (l : List (Nat × Nat)) (g : MainGrid) (q : Nat),
      (∀ e ∈ l, e.1 % 9 * 9 + e.1 / 9 ≠ q) →
      (l.foldl mainParseStep g).getD q 0 = g.getD q 0 := by
  intro l
  induction l with
  | nil => intro g q _; rfl
  | cons e l ih =>
    intro g q hq
    rw [List.foldl_cons, ih _ _ fun x hx => hq x (by simp [hx])]
    unfold mainParseStep
    split
    · exact getD_set_ne (hq e (by simp))
    · rfl

theorem foldl_enumFrom_getD :
    ∀ (l : List Nat) (k : Nat) (g : MainGrid), g.length = 81 → k + l.length ≤ 81 →
      ∀ j, j < l.length →
        ((List.enumFrom k l).foldl mainParseStep g).getD ((k + j) % 9 * 9 + (k + j) / 9) 0
          = (if 49 ≤ l.getD j 0 ∧ l.getD j 0 ≤ 57 then l.getD j 0 - 48
             else g.getD ((k + j) % 9 * 9 + (k + j) / 9) 0) := by
  intro l
  induction l with
  | nil =>
    intro k g _ _ j hj
    exact absurd hj (by simp)
  | cons b l ih =>
    intro k g hg hk j hj
    rw [List.enumFrom_cons, List.foldl_cons]
    cases j with
    | zero =>
      have hlen : k + 1 + l.length ≤ 81 := by
        simp only [List.length_cons] at hk
        omega
      have huntouched : ∀ e ∈ List.enumFrom (k + 1) l,
          e.1 % 9 * 9 + e.1 / 9 ≠ (k + 0) % 9 * 9 + (k + 0) / 9 := by
        intro e he
        obtain ⟨h1, h2, _⟩ := List.mem_enumFrom he
        omega
      rw [foldl_mainParseStep_untouched _ _ _ huntouched]
      simp only [Nat.add_zero, List.getD_cons_zero]
      unfold mainParseStep
      simp only []
      split
      · exact getD_set_self (by rw [hg]; omega)
      · rfl
    | succ j =>
      have hstep : (mainParseStep g (k, b)).length = 81 := by
        unfold mainParseStep
        split
        · simp [hg]
        · exact hg
      have hk' : k + 1 + l.length ≤ 81 := by
        simp only [List.length_cons] at hk
        omega
      have hj' : j < l.length := by
        simp only [List.length_cons] at hj
        omega
      have := ih (k + 1) (mainParseStep g (k, b)) hstep hk' j hj'
      rw [show k + 1 + j = k + (j + 1) by omega] at this
      rw [this, List.getD_cons_succ]
      by_cases hd : 49 ≤ l.getD j 0 ∧ l.getD j 0 ≤ 57
      · rw [if_pos hd, if_pos hd]
      · rw [if_neg hd, if_neg hd]
        unfold mainParseStep
        split
        · refine getD_set_ne ?_
          simp only []
          simp only [List.length_cons] at hk
          omega
        · rfl

end ParserCharacterization

/-- C7 amended: `Sudoku::from_line` panics exactly when the line length is
not 81 or some byte lies outside `{'.', '1'..'9'}`, and otherwise places, for
each index `i`, an empty cell at `(column i % 9, row i / 9)` for `'.'` and
the corresponding digit value for `'1'..'9'`.  The CLI's
`parse_sudoku_line`, however, treats only a wrong line length as fatal: any
byte that is not an ASCII digit `'1'..'9'` (including `'.'` and illegal
bytes alike) silently yields an empty cell. -/
theorem claim_C7_amended_parsers (line : List Nat) (hbytes : ∀ b ∈ line, b < 256) :
    (Sudoku.from_line line = none ↔
        (line.length ≠ 81 ∨ ∃ b ∈ line, ¬(b = 46 ∨ (49 ≤ b ∧ b ≤ 57))))
      ∧ (∀ g, Sudoku.from_line line = some g → ∀ i, i < 81 →
          getXY g (i % 9) (i / 9)
            = (if line.getD i 0 = 46 then none else some (line.getD i 0 - 48)))
      ∧ ((parse_sudoku_line line).isSome ↔ line.length = 81)
      ∧ (∀ g, parse_sudoku_line line = some g → ∀ i, i < 81 →
          g.getD (i % 9 * 9 + i / 9) 0
            = (if 49 ≤ line.getD i 0 ∧ line.getD i 0 ≤ 57 then line.getD i 0 - 48 else 0)) := by
  refine ⟨?_, ?_, ?_, ?_⟩
  · by_cases hlen : line.length = 81
    · rw [Sudoku.from_line, if_pos hlen]
      rw [mapOpt_eq_none_iff]
      constructor
      · rintro ⟨b, hbmem, hbnone⟩
        exact Or.inr ⟨b, hbmem, (from_ascci_char_none_iff (hbytes b hbmem)).mp hbnone⟩
      · rintro (h | ⟨b, hbmem, hbbad⟩)
        · exact absurd hlen h
        · exact ⟨b, hbmem, (from_ascci_char_none_iff (hbytes b hbmem)).mpr hbbad⟩
    · rw [Sudoku.from_line, if_neg hlen]
      simp [hlen]
  · intro g hg i hi
    rw [Sudoku.from_line] at hg
    by_cases hlen : line.length = 81
    · rw [if_pos hlen] at hg
      obtain ⟨hglen, hval⟩ := mapOpt_some_getD 0 (none : SudokuCell) line g hg
      have hi' : i < line.length := by omega
      have hv := hval i hi'
      have hmem : line.getD i 0 ∈ line := by
        rw [List.getD_eq_getElem?_getD, List.getElem?_eq_getElem hi', Option.getD_some]
        exact List.getElem_mem hi'
      have hb : line.getD i 0 < 256 := hbytes _ hmem
      rw [from_ascci_char_eq _ hb] at hv
      have hxy : getXY g (i % 9) (i / 9) = g.getD i none := by
        rw [getXY, getC, show i / 9 * 9 + i % 9 = i by omega]
      rw [hxy]
      by_cases h46 : line.getD i 0 = 46
      · rw [if_pos h46] at hv ⊢
        simpa using hv.symm
      · rw [if_neg h46] at hv ⊢
        by_cases hd : 49 ≤ line.getD i 0 ∧ line.getD i 0 ≤ 57
        · rw [if_pos hd] at hv
          simpa using hv.symm
        · rw [if_neg hd] at hv
          exact absurd hv (by simp)
    · rw [if_neg hlen] at hg
      exact absurd hg (by simp)
  · rw [parse_sudoku_line]
    by_cases hlen : line.length = 81
    · simp [hlen]
    · simp [hlen]
  · intro g hg i hi
    rw [parse_sudoku_line] at hg
    by_cases hlen : line.length = 81
    · rw [if_pos hlen] at hg
      simp only [Option.some_inj] at hg
      subst hg
      have := foldl_enumFrom_getD line 0 (List.replicate 81 0) (by simp) (by omega) i (by omega)
      simp only [Nat.zero_add] at this
      rw [show line.enum = List.enumFrom 0 line from rfl, this]
      by_cases hd : 49 ≤ line.getD i 0 ∧ line.getD i 0 ≤ 57
      · rw [if_pos hd, if_pos hd]
      · rw [if_neg hd, if_neg hd]
        rw [List.getD_eq_getElem?_getD, List.getElem?_replicate]
        split
        · rfl
        · rfl
    · rw [if_neg hlen] at hg
      exact absurd hg (by simp)

/-- Witness for the amended C7: the characterization applied to the
repository's test line. -/
theorem claim_C7_amended_witness :
    (∀ b ∈ testLine, b < 256)
      ∧ ((parse_sudoku_line testLine).isSome ↔ testLine.length = 81) :=
  ⟨by decide, (claim_C7_amended_parsers testLine (by decide)).2.2.1⟩

section Termination

theorem findFrom_some {mem : Nat → Bool} :
    ∀ n c v, findFrom mem n c = some v → c < v ∧ v ≤ 9 := by
  intro n
  induction n with
  | zero =>
    intro c v h
    exact absurd h (by simp [findFrom])
  | succ n ih =>
    intro c v h
    rw [findFrom] at h
    by_cases h9 : 9 ≤ c
    · rw [if_pos h9] at h
      exact absurd h (by simp)
    · rw [if_neg h9] at h
      by_cases hm : mem (c + 1) = true
      · rw [if_pos hm] at h
        have := ih (c + 1) v h
        omega
      · rw [if_neg hm] at h
        have hv : c + 1 = v := by simpa using h
        omega

theorem cursorsN_le : ∀ (t : List (Nat × Nat)) (f : Nat),
    cursorsN f t + 10 ^ f ≤ 10 ^ (f + t.length) := by
  intro t
  induction t with
  | nil =>
    intro f
    simp [cursorsN]
  | cons hd rest ih =>
    obtain ⟨ix, c⟩ := hd
    intro f
    simp only [cursorsN, List.length_cons]
    have hrec := ih (f + 1)
    have hmin : min c 9 ≤ 9 := Nat.min_le_right c 9
    have hmul : min c 9 * 10 ^ f ≤ 9 * 10 ^ f := Nat.mul_le_mul_right _ hmin
    have hp : 10 ^ (f + 1) = 10 * 10 ^ f := by rw [pow_succ]; ring
    rw [show f + (rest.length + 1) = f + 1 + rest.length by omega]
    omega

theorem backtrack_measure (m : AffFun) :
    ∀ (t : List (Nat × Nat)) (s : Sudoku) (e : List Nat) (s' : Sudoku) (e' : List Nat)
      (t' : List (Nat × Nat)),
      backtrackGen m s e t = Sum.inr (s', e', t') →
      e'.length + t'.length = e.length + t.length
        ∧ cursorsN e.length t + 10 ^ e.length ≤ cursorsN e'.length t' := by
  intro t
  induction t with
  | nil =>
    intro s e s' e' t' h
    exact absurd h (by simp [backtrackGen])
  | cons hd rest ih =>
    obtain ⟨ix, c⟩ := hd
    intro s e s' e' t' h
    rw [backtrackGen] at h
    cases hf : findFrom (m (setC s ix none) ix) (9 - c) c with
    | some v =>
      rw [hf] at h
      obtain ⟨hc1, hc2⟩ := findFrom_some _ _ _ hf
      have h3 : s' = setC (setC s ix none) ix (some v) ∧ e' = e ∧ t' = (ix, v) :: rest := by
        simpa [Prod.ext_iff] using h.symm
      obtain ⟨hs2, he2, ht2⟩ := h3
      subst hs2
      subst ht2
      rw [he2]
      refine ⟨by simp, ?_⟩
      simp only [cursorsN]
      have hcle : min c 9 = c := by omega
      have hvle : min v 9 = v := by omega
      rw [hcle, hvle]
      have hmul : (c + 1) * 10 ^ e.length ≤ v * 10 ^ e.length :=
        Nat.mul_le_mul_right _ (by omega)
      have hexp : (c + 1) * 10 ^ e.length = c * 10 ^ e.length + 10 ^ e.length := by ring
      omega
    | none =>
      rw [hf] at h
      obtain ⟨hlen, hcur⟩ := ih _ _ _ _ _ h
      simp only [List.length_cons] at hlen hcur ⊢
      refine ⟨by omega, ?_⟩
      simp only [cursorsN]
      have hmin : min c 9 ≤ 9 := Nat.min_le_right c 9
      have hmul : min c 9 * 10 ^ e.length ≤ 9 * 10 ^ e.length := Nat.mul_le_mul_right _ hmin
      have hp : 10 ^ (e.length + 1) = 10 * 10 ^ e.length := by rw [pow_succ]; ring
      omega

theorem solveLoop_isSome (m : AffFun) :
    ∀ (fuel : Nat) (s : Sudoku) (e : List Nat) (t : List (Nat × Nat)),
      10 ^ (e.length + t.length) - cursorsN e.length t ≤ fuel →
      (solveLoopGen m fuel s e t).isSome = true := by
  intro fuel
  induction fuel with
  | zero =>
    intro s e t h
    exfalso
    have h1 := cursorsN_le t e.length
    have h2 : 1 ≤ 10 ^ e.length := Nat.one_le_pow _ _ (by omega)
    omega
  | succ fuel ih =>
    intro s e t h
    rw [solveLoopGen.eq_def]
    cases e with
    | nil => simp
    | cons ix rest =>
      dsimp only
      cases hf : findFrom (m s ix) 9 0 with
      | some v =>
        simp only [hf]
        apply ih
        obtain ⟨hv1, hv2⟩ := findFrom_some _ _ _ hf
        simp only [cursorsN, List.length_cons] at h ⊢
        rw [show rest.length + (t.length + 1) = rest.length + 1 + t.length by omega]
        have hvle : min v 9 = v := by omega
        rw [hvle]
        have hmul : 1 * 10 ^ rest.length ≤ v * 10 ^ rest.length :=
          Nat.mul_le_mul_right _ (by omega)
        have h2 : 1 ≤ 10 ^ rest.length := Nat.one_le_pow _ _ (by omega)
        omega
      | none =>
        simp only [hf]
        cases hb : backtrackGen m (setC s ix none) (ix :: rest) t with
        | inl pr =>
          simp [hb]
        | inr pr =>
          obtain ⟨s2, e2, t2⟩ := pr
          simp only [hb]
          apply ih
          obtain ⟨hlen, hcur⟩ := backtrack_measure m t _ _ _ _ _ hb
          simp only [List.length_cons] at hlen hcur h
          rw [show e2.length + t2.length = rest.length + 1 + t.length from by omega]
          have h2 : 1 ≤ 10 ^ (rest.length + 1) := Nat.one_le_pow _ _ (by omega)
          omega

theorem solveLoop_total (m : AffFun) (g : Sudoku) :
    (solveLoopGen m (boundFuel g) g (emptyCells g) []).isSome = true := by
  apply solveLoop_isSome
  simp [cursorsN, boundFuel]

end Termination

/-- C3: the solver's main loop terminates on every input grid: with fuel at
least `10 ^ (number of initially empty cells)` main-loop iterations the
search always returns (success or exhaustion), never looping forever.  The
bound comes from the trail cursors advancing monotonically, so no
(position, value) pair is retried within one trail lifetime. -/
theorem claim_C3_termination (g : Sudoku) (fuel : Nat)
    (hfuel : 10 ^ (emptyCells g).length ≤ fuel) :
    (solveLoopGen affMem fuel g (emptyCells g) []).isSome = true := by
  apply solveLoop_isSome
  simpa [cursorsN] using hfuel

/-- Witness for C3: termination applied to a concrete grid with one empty
cell and fuel 10. -/
theorem claim_C3_witness :
    (solveLoopGen affMem 10 oneEmptyGrid (emptyCells oneEmptyGrid) []).isSome = true :=
  claim_C3_termination oneEmptyGrid 10 (by decide)

section Invariant

theorem mem_emptyCells {g : Sudoku} {p : Nat} :
    p ∈ emptyCells g ↔ p < g.length ∧ getC g p = none := by
  simp [emptyCells, List.mem_filter, List.mem_range, Option.isNone_iff_eq_none]

theorem nodup_emptyCells (g : Sudoku) : (emptyCells g).Nodup :=
  List.nodup_reverse.mpr (List.Nodup.filter _ (List.nodup_range _))

theorem loopInv_init (g : Sudoku) : LoopInv g g (emptyCells g) [] := by
  refine ⟨rfl, ?_, ?_, ?_, ?_, ?_, ?_, ?_, ?_, ?_⟩
  · intro p hp
    exact (mem_emptyCells.mp hp).1
  · intro pr hpr
    exact absurd hpr (by simp)
  · intro p hp
    exact (mem_emptyCells.mp hp).2
  · intro pr hpr
    exact absurd hpr (by simp)
  · intro p hp
    exact (mem_emptyCells.mp hp).2
  · intro pr hpr
    exact absurd hpr (by simp)
  · intro p _ _
    rfl
  · intro p hlt hemp
    exact Or.inl (mem_emptyCells.mpr ⟨hlt, hemp⟩)
  · simpa using nodup_emptyCells g

theorem getElem?_eq_some_getC {g : Sudoku} {n : Nat} (h : n < g.length) :
    g[n]? = some (getC g n) := by
  rw [getC_eq_getElem?, List.getElem?_eq_getElem h]
  rfl

theorem loopInv_nil_eq {g0 s : Sudoku} {e : List Nat} (inv : LoopInv g0 s e []) :
    s = g0 := by
  apply List.ext_getElem?
  intro n
  by_cases hn : n < g0.length
  · rw [getElem?_eq_some_getC (by rw [inv.len]; exact hn), getElem?_eq_some_getC hn]
    by_cases he : n ∈ e
    · rw [inv.curEmpty n he, inv.origEmptyE n he]
    · exact congrArg some (inv.untouched n he (by simp))
  · have hs : s.length ≤ n := by rw [inv.len]; omega
    have hg : g0.length ≤ n := by omega
    rw [List.getElem?_eq_none hs, List.getElem?_eq_none hg]

theorem backtrack_inv (m : AffFun) :
    ∀ (t : List (Nat × Nat)) (s : Sudoku) (e : List Nat) (g0 : Sudoku),
      LoopInv g0 s e t →
      (∀ s2 e2, backtrackGen m s e t = Sum.inl (s2, e2) → LoopInv g0 s2 e2 [])
        ∧ (∀ s2 e2 t2, backtrackGen m s e t = Sum.inr (s2, e2, t2) → LoopInv g0 s2 e2 t2) := by
  intro t
  induction t with
  | nil =>
    intro s e g0 inv
    constructor
    · intro s2 e2 h
      rw [backtrackGen] at h
      have h2 : s = s2 ∧ e = e2 := by simpa [Prod.ext_iff] using h
      obtain ⟨rfl, rfl⟩ := h2
      exact inv
    · intro s2 e2 t2 h
      rw [backtrackGen] at h
      exact absurd h (by simp)
  | cons hd rest ih =>
    obtain ⟨ix, c⟩ := hd
    intro s e g0 inv
    have hnd0 : (e ++ ix :: rest.map Prod.fst).Nodup := by simpa using inv.nodup
    have hnd := hnd0
    rw [List.nodup_append] at hnd
    obtain ⟨hndE, hndT, hdisj⟩ := hnd
    have hixE : ix ∉ e := fun hm => hdisj hm (List.mem_cons_self _ _)
    have hixT : ix ∉ rest.map Prod.fst := (List.nodup_cons.mp hndT).1
    have hixLt : ix < g0.length := inv.boundsT (ix, c) (List.mem_cons_self _ _)
    have hsLen : ix < s.length := by rw [inv.len]; exact hixLt
    have hg0ix : getC g0 ix = none := inv.origEmptyT (ix, c) (List.mem_cons_self _ _)
    have hinv1 : LoopInv g0 (setC s ix none) (ix :: e) rest := by
      refine ⟨?_, ?_, ?_, ?_, ?_, ?_, ?_, ?_, ?_, ?_⟩
      · rw [length_setC, inv.len]
      · intro p hp
        rcases List.mem_cons.mp hp with rfl | hp2
        · exact hixLt
        · exact inv.boundsE p hp2
      · intro pr hpr
        exact inv.boundsT pr (List.mem_cons_of_mem _ hpr)
      · intro p hp
        rcases List.mem_cons.mp hp with rfl | hp2
        · exact hg0ix
        · exact inv.origEmptyE p hp2
      · intro pr hpr
        exact inv.origEmptyT pr (List.mem_cons_of_mem _ hpr)
      · intro p hp
        by_cases hpix : p = ix
        · subst hpix
          exact getC_setC_self _ hsLen
        · rw [getC_setC_ne _ hpix]
          rcases List.mem_cons.mp hp with rfl | hp2
          · exact absurd rfl hpix
          · exact inv.curEmpty p hp2
      · intro pr hpr
        have hne : pr.1 ≠ ix := fun hcon => hixT (hcon ▸ List.mem_map_of_mem Prod.fst hpr)
        rw [getC_setC_ne _ hne]
        exact inv.curFilled pr (List.mem_cons_of_mem _ hpr)
      · intro p hpe hpt
        have hpix : p ≠ ix := fun hcon => hpe (hcon ▸ List.mem_cons_self _ _)
        rw [getC_setC_ne _ hpix]
        refine inv.untouched p (fun hcon => hpe (List.mem_cons_of_mem _ hcon)) ?_
        simp only [List.map_cons, List.mem_cons]
        rintro (rfl | hcon)
        · exact hpix rfl
        · exact hpt hcon
      · intro p hlt hemp
        rcases inv.cover p hlt hemp with hc | hc
        · exact Or.inl (List.mem_cons_of_mem _ hc)
        · simp only [List.map_cons, List.mem_cons] at hc
          rcases hc with rfl | hc2
          · exact Or.inl (List.mem_cons_self _ _)
          · exact Or.inr hc2
      · have := List.perm_middle.nodup hnd0
        simpa using this
    constructor
    · intro s2 e2 h
      rw [backtrackGen] at h
      cases hf : findFrom (m (setC s ix none) ix) (9 - c) c with
      | some v =>
        rw [hf] at h
        exact absurd h (by simp)
      | none =>
        rw [hf] at h
        exact (ih (setC s ix none) (ix :: e) g0 hinv1).1 s2 e2 h
    · intro s2 e2 t2 h
      rw [backtrackGen] at h
      cases hf : findFrom (m (setC s ix none) ix) (9 - c) c with
      | some v =>
        rw [hf] at h
        have h3 : setC (setC s ix none) ix (some v) = s2 ∧ e = e2 ∧ (ix, v) :: rest = t2 := by
          simpa [Prod.ext_iff] using h
        obtain ⟨rfl, rfl, rfl⟩ := h3
        have hsLen1 : ix < (setC s ix none).length := by
          rw [length_setC]
          exact hsLen
        refine ⟨?_, ?_, ?_, ?_, ?_, ?_, ?_, ?_, ?_, ?_⟩
        · rw [length_setC, length_setC, inv.len]
        · exact inv.boundsE
        · intro pr hpr
          rcases List.mem_cons.mp hpr with rfl | hpr2
          · exact hixLt
          · exact inv.boundsT pr (List.mem_cons_of_mem _ hpr2)
        · exact inv.origEmptyE
        · intro pr hpr
          rcases List.mem_cons.mp hpr with rfl | hpr2
          · exact hg0ix
          · exact inv.origEmptyT pr (List.mem_cons_of_mem _ hpr2)
        · intro p hp
          have hpix : p ≠ ix := fun hcon => hixE (hcon ▸ hp)
          rw [getC_setC_ne _ hpix, getC_setC_ne _ hpix]
          exact inv.curEmpty p hp
        · intro pr hpr
          rcases List.mem_cons.mp hpr with rfl | hpr2
          · exact getC_setC_self _ hsLen1
          · have hne : pr.1 ≠ ix := fun hcon => hixT (hcon ▸ List.mem_map_of_mem Prod.fst hpr2)
            rw [getC_setC_ne _ hne, getC_setC_ne _ hne]
            exact inv.curFilled pr (List.mem_cons_of_mem _ hpr2)
        · intro p hpe hpt
          simp only [List.map_cons, List.mem_cons] at hpt
          have hpix : p ≠ ix := fun hcon => hpt (Or.inl hcon)
          rw [getC_setC_ne _ hpix, getC_setC_ne _ hpix]
          refine inv.untouched p hpe ?_
          simp only [List.map_cons, List.mem_cons]
          rintro (rfl | hcon)
          · exact hpix rfl
          · exact hpt (Or.inr hcon)
        · intro p hlt hemp
          rcases inv.cover p hlt hemp with hc | hc
          · exact Or.inl hc
          · simp only [List.map_cons] at hc ⊢
            exact Or.inr hc
        · simpa using hnd0
      | none =>
        rw [hf] at h
        exact (ih (setC s ix none) (ix :: e) g0 hinv1).2 s2 e2 t2 h

end Invariant

section LoopInvariant

theorem solveLoop_inv (m : AffFun) :
    ∀ (fuel : Nat) (s : Sudoku) (e : List Nat) (t : List (Nat × Nat)) (g0 : Sudoku),
      LoopInv g0 s e t →
      (∀ s2, solveLoopGen m fuel s e t = some (Except.ok s2) → ∃ t2, LoopInv g0 s2 [] t2)
        ∧ (∀ s2, solveLoopGen m fuel s e t = some (Except.error s2) → s2 = g0) := by
  intro fuel
  induction fuel with
  | zero =>
    intro s e t g0 inv
    constructor
    · intro s2 h
      rw [solveLoopGen.eq_def] at h
      exact absurd h (by simp)
    · intro s2 h
      rw [solveLoopGen.eq_def] at h
      exact absurd h (by simp)
  | succ fuel ih =>
    intro s e t g0 inv
    cases e with
    | nil =>
      constructor
      · intro s2 h
        rw [solveLoopGen.eq_def] at h
        have hs : s = s2 := by simpa using h
        subst hs
        exact ⟨t, inv⟩
      · intro s2 h
        rw [solveLoopGen.eq_def] at h
        exact absurd h (by simp)
    | cons ix rest =>
      have hnd1 : (ix :: (rest ++ t.map Prod.fst)).Nodup := by simpa using inv.nodup
      obtain ⟨hixBoth, hndRT⟩ := List.nodup_cons.mp hnd1
      have hixRest : ix ∉ rest := fun hc => hixBoth (List.mem_append.mpr (Or.inl hc))
      have hixT : ix ∉ t.map Prod.fst := fun hc => hixBoth (List.mem_append.mpr (Or.inr hc))
      have hixLt : ix < g0.length := inv.boundsE ix (List.mem_cons_self _ _)
      have hsLen : ix < s.length := by rw [inv.len]; exact hixLt
      have hg0ix : getC g0 ix = none := inv.origEmptyE ix (List.mem_cons_self _ _)
      have hinvPop : LoopInv g0 (setC s ix none) (ix :: rest) t := by
        refine ⟨?_, inv.boundsE, inv.boundsT, inv.origEmptyE, inv.origEmptyT, ?_, ?_, ?_,
          inv.cover, inv.nodup⟩
        · rw [length_setC, inv.len]
        · intro p hp
          by_cases hpix : p = ix
          · subst hpix
            exact getC_setC_self _ hsLen
          · rw [getC_setC_ne _ hpix]
            exact inv.curEmpty p hp
        · intro pr hpr
          have hne : pr.1 ≠ ix := fun hc => hixT (hc ▸ List.mem_map_of_mem Prod.fst hpr)
          rw [getC_setC_ne _ hne]
          exact inv.curFilled pr hpr
        · intro p hpe hpt
          have hpix : p ≠ ix := fun hc => hpe (hc ▸ List.mem_cons_self _ _)
          rw [getC_setC_ne _ hpix]
          exact inv.untouched p hpe hpt
      have hinvFill : ∀ v, LoopInv g0 (setC s ix (some v)) rest ((ix, v) :: t) := by
        intro v
        refine ⟨?_, ?_, ?_, ?_, ?_, ?_, ?_, ?_, ?_, ?_⟩
        · rw [length_setC, inv.len]
        · intro p hp
          exact inv.boundsE p (List.mem_cons_of_mem _ hp)
        · intro pr hpr
          rcases List.mem_cons.mp hpr with rfl | hpr2
          · exact hixLt
          · exact inv.boundsT pr hpr2
        · intro p hp
          exact inv.origEmptyE p (List.mem_cons_of_mem _ hp)
        · intro pr hpr
          rcases List.mem_cons.mp hpr with rfl | hpr2
          · exact hg0ix
          · exact inv.origEmptyT pr hpr2
        · intro p hp
          have hpix : p ≠ ix := fun hc => hixRest (hc ▸ hp)
          rw [getC_setC_ne _ hpix]
          exact inv.curEmpty p (List.mem_cons_of_mem _ hp)
        · intro pr hpr
          rcases List.mem_cons.mp hpr with rfl | hpr2
          · exact getC_setC_self _ hsLen
          · have hne : pr.1 ≠ ix := fun hc => hixT (hc ▸ List.mem_map_of_mem Prod.fst hpr2)
            rw [getC_setC_ne _ hne]
            exact inv.curFilled pr hpr2
        · intro p hpe hpt
          simp only [List.map_cons, List.mem_cons] at hpt
          have hpix : p ≠ ix := fun hc => hpt (Or.inl hc)
          rw [getC_setC_ne _ hpix]
          refine inv.untouched p ?_ ?_
          · intro hc
            rcases List.mem_cons.mp hc with rfl | hc2
            · exact hpix rfl
            · exact hpe hc2
          · intro hc
            exact hpt (Or.inr hc)
        · intro p hlt hemp
          rcases inv.cover p hlt hemp with hc | hc
          · rcases List.mem_cons.mp hc with rfl | hc2
            · exact Or.inr (by simp)
            · exact Or.inl hc2
          · exact Or.inr (by simp [hc])
        · have hnew : (rest ++ ix :: t.map Prod.fst).Nodup := List.perm_middle.symm.nodup hnd1
          simpa using hnew
      constructor
      · intro s2 h
        rw [solveLoopGen.eq_def] at h
        cases hf : findFrom (m s ix) 9 0 with
        | some v =>
          have h2 : solveLoopGen m fuel (setC s ix (some v)) rest ((ix, v) :: t)
              = some (Except.ok s2) := by
            simpa [hf] using h
          exact (ih _ _ _ _ (hinvFill v)).1 s2 h2
        | none =>
          cases hb : backtrackGen m (setC s ix none) (ix :: rest) t with
          | inl pr =>
            obtain ⟨sb, eb⟩ := pr
            exact absurd h (by simp [hf, hb])
          | inr pr =>
            obtain ⟨sb, eb, tb⟩ := pr
            have h2 : solveLoopGen m fuel sb eb tb = some (Except.ok s2) := by
              simpa [hf, hb] using h
            have hinvB := (backtrack_inv m t _ _ _ hinvPop).2 sb eb tb hb
            exact (ih _ _ _ _ hinvB).1 s2 h2
      · intro s2 h
        rw [solveLoopGen.eq_def] at h
        cases hf : findFrom (m s ix) 9 0 with
        | some v =>
          have h2 : solveLoopGen m fuel (setC s ix (some v)) rest ((ix, v) :: t)
              = some (Except.error s2) := by
            simpa [hf] using h
          exact (ih _ _ _ _ (hinvFill v)).2 s2 h2
        | none =>
          cases hb : backtrackGen m (setC s ix none) (ix :: rest) t with
          | inl pr =>
            obtain ⟨sb, eb⟩ := pr
            have hinvB := (backtrack_inv m t _ _ _ hinvPop).1 sb eb hb
            have hsb : sb = s2 := by simpa [hf, hb] using h
            subst hsb
            exact loopInv_nil_eq hinvB
          | inr pr =>
            obtain ⟨sb, eb, tb⟩ := pr
            have h2 : solveLoopGen m fuel sb eb tb = some (Except.error s2) := by
              simpa [hf, hb] using h
            have hinvB := (backtrack_inv m t _ _ _ hinvPop).2 sb eb tb hb
            exact (ih _ _ _ _ hinvB).2 s2 h2

end LoopInvariant

section SolverConsequences

theorem tryDFSRaw_cases (m : AffFun) (g : Sudoku) :
    (∀ s2, tryDFSRawGen m g = Except.ok s2 → ∃ t2, LoopInv g s2 [] t2)
      ∧ (∀ s2, tryDFSRawGen m g = Except.error s2 → s2 = g) := by
  have htot := solveLoop_total m g
  cases hr : solveLoopGen m (boundFuel g) g (emptyCells g) [] with
  | none =>
    rw [hr] at htot
    exact absurd htot (by simp)
  | some r =>
    have hinv := solveLoop_inv m (boundFuel g) g (emptyCells g) [] g (loopInv_init g)
    constructor
    · intro s2 h
      rw [tryDFSRawGen, hr, Option.getD_some] at h
      exact hinv.1 s2 (by rw [hr, h])
    · intro s2 h
      rw [tryDFSRawGen, hr, Option.getD_some] at h
      exact hinv.2 s2 (by rw [hr, h])

theorem mapOpt_id_toSudoku :
    ∀ (s : Sudoku) (sol : SolvedSudoku), mapOpt id s = some sol → sol.map some = s := by
  intro s
  induction s with
  | nil =>
    intro sol h
    have hsol : sol = [] := by simpa [mapOpt] using h.symm
    subst hsol
    rfl
  | cons c rest ih =>
    intro sol h
    cases c with
    | none => exact absurd h (by simp [mapOpt])
    | some v =>
      rw [mapOpt] at h
      cases hrest : mapOpt id rest with
      | none =>
        rw [hrest] at h
        exact absurd h (by simp [id])
      | some sol' =>
        rw [hrest] at h
        have hsol : v :: sol' = sol := by simpa [id] using h
        subst hsol
        simp [ih sol' hrest]

end SolverConsequences

/-- C4: whenever `try_solve` returns the exhaustion error, the carried grid
equals the original input cell for cell: every tentative assignment has been
undone, so every originally empty cell is empty again and every given is
unchanged. -/
theorem claim_C4_error_restores_input (g s2 : Sudoku)
    (h : IterativeDFS.try_solve g = some (Except.error s2)) : s2 = g := by
  rw [IterativeDFS.try_solve, tryDFSGen] at h
  cases hr : tryDFSRawGen affMem g with
  | ok s =>
    rw [hr] at h
    dsimp only at h
    cases hts : trySolved s with
    | none =>
      rw [hts] at h
      exact absurd h (by simp)
    | some sol =>
      rw [hts] at h
      exact absurd h (by simp)
  | error s =>
    rw [hr] at h
    dsimp only at h
    have hs : s = s2 := by simpa using h
    subst hs
    exact (tryDFSRaw_cases affMem g).2 s hr

/-- Witness for C4: an input grid with one empty cell blocked by all nine
values, on which `try_solve` returns the exhaustion error carrying the
input grid itself. -/
theorem claim_C4_witness :
    IterativeDFS.try_solve exhaustGrid = some (Except.error exhaustGrid)
      ∧ exhaustGrid = exhaustGrid :=
  ⟨rfl, claim_C4_error_restores_input exhaustGrid exhaustGrid rfl⟩

/-- C1: whenever `try_solve` returns `Ok(s)`, the grid of `s` is completely
filled and valid (no duplicated value among the filled cells of any row,
column or box), and every position that was filled in the input grid holds
its original value in `s`. -/
theorem claim_C1_solution_validity (g : Sudoku) (sol : SolvedSudoku)
    (h : IterativeDFS.try_solve g = some (Except.ok sol)) :
    sol.toSudoku.filledB = true ∧ sol.toSudoku.validB = true
      ∧ ∀ p, (getC g p).isSome = true → getC sol.toSudoku p = getC g p := by
  rw [IterativeDFS.try_solve, tryDFSGen] at h
  cases hr : tryDFSRawGen affMem g with
  | error s =>
    rw [hr] at h
    dsimp only at h
    exact absurd h (by simp)
  | ok s =>
    rw [hr] at h
    dsimp only at h
    cases hts : trySolved s with
    | none =>
      rw [hts] at h
      exact absurd h (by simp)
    | some sol' =>
      rw [hts] at h
      have hsol : sol' = sol := by simpa using h
      subst hsol
      rw [trySolved] at hts
      by_cases hsv : s.solvedB = true
      · rw [if_pos hsv] at hts
        have hts2 : sol'.toSudoku = s := mapOpt_id_toSudoku s sol' hts
        rw [Sudoku.solvedB, Bool.and_eq_true] at hsv
        obtain ⟨hf, hv⟩ := hsv
        refine ⟨by rw [hts2]; exact hf, by rw [hts2]; exact hv, ?_⟩
        intro p hp
        rw [hts2]
        obtain ⟨t2, inv⟩ := (tryDFSRaw_cases affMem g).1 s hr
        have hpt : p ∉ t2.map Prod.fst := by
          intro hc
          obtain ⟨pr, hpr, hpr2⟩ := List.mem_map.mp hc
          have hnone := inv.origEmptyT pr hpr
          rw [hpr2] at hnone
          rw [hnone] at hp
          exact absurd hp (by simp)
        exact inv.untouched p (by simp) hpt
      · rw [if_neg hsv] at hts
        exact absurd hts (by simp)

/-- Witness for C1: a solved grid with one cell blanked; the solver fills it
back, and the returned solution is filled, valid, and preserves the givens. -/
theorem claim_C1_witness :
    baseVals.toSudoku.filledB = true ∧ baseVals.toSudoku.validB = true
      ∧ ∀ p, (getC oneEmptyGrid p).isSome = true
          → getC baseVals.toSudoku p = getC oneEmptyGrid p :=
  claim_C1_solution_validity oneEmptyGrid baseVals rfl
